import Mathlib

/-!
Verification development for the browser-resident acoustic threat monitor
(poaching-prevention-using-sound-recognization).  The definitions below are a
shallow embedding of the real-time classification pipeline implemented in
src/src/hooks/useAudioClassifier.ts (current revision) and of the enrollment
normalization in src/src/hooks/useTransferLearning.ts.  Sample values and
scores are modelled as exact rationals; the RMS volume, which the code takes a
square root of, is modelled over the reals.
-/

namespace Poaching

/-- Constant YAMNET_SAMPLE_RATE from useAudioClassifier.ts. -/
def YAMNET_SAMPLE_RATE : ℕ := 16000

/-- Constant YAMNET_INPUT_SIZE from useAudioClassifier.ts (about 0.975 s). -/
def YAMNET_INPUT_SIZE : ℕ := 15600

/-- Label list GUNSHOT_RELATED from the inference callback (refined list of the
current revision, without Burst/Bang/Firecracker). -/
def GUNSHOT_RELATED : List String :=
  ["Gunshot, gunfire", "Cap gun", "Fusillade", "Explosion"]

/-- Label list CHAINSAW_RELATED from the inference callback (generic Engine
labels removed in the current revision). -/
def CHAINSAW_RELATED : List String := ["Chainsaw"]

/-- Veto label list FALSE_POSITIVES from the inference callback. -/
def FALSE_POSITIVES : List String :=
  ["Hands", "Finger snapping", "Clapping", "Knock", "Tap",
   "Slap, smack", "Whack, thwack", "Drum", "Snare drum", "Rimshot",
   "Door", "Slam", "Hammer", "Building", "Wood", "Chopping (food)"]

/-- Accumulator of the aggregation loop: the three running maxima
gunshotScore, chainsawScore and falsePositiveScore. -/
structure AggScores where
  gunshot : ℚ
  chainsaw : ℚ
  mimic : ℚ
deriving DecidableEq

/-- One iteration of the aggregation loop over (label, score) pairs:
each category keeps the maximum score seen among its related labels
(Math.max, starting from 0). -/
def aggStep (acc : AggScores) (entry : String × ℚ) : AggScores :=
  { gunshot := if GUNSHOT_RELATED.contains entry.1 then max acc.gunshot entry.2 else acc.gunshot
    chainsaw := if CHAINSAW_RELATED.contains entry.1 then max acc.chainsaw entry.2 else acc.chainsaw
    mimic := if FALSE_POSITIVES.contains entry.1 then max acc.mimic entry.2 else acc.mimic }

/-- Aggregation loop of the inference callback: walk the class-probability
vector in parallel with the taxonomy (up to the shorter length, mirroring the
limit = min(scores.length, YAMNET_CLASSES.length) bound) and fold aggStep
starting from all-zero scores. -/
def aggregate (classes : List String) (scores : List ℚ) : AggScores :=
  (classes.zip scores).foldl aggStep ⟨0, 0, 0⟩

/-- Veto logic of the inference callback, applied to the gunshot score only:
strong veto zeroes the score, partial suppression subtracts 0.3. -/
def vetoGunshot (mimicScore gunshotScore : ℚ) : ℚ :=
  if mimicScore > 1/5 ∧ mimicScore ≥ gunshotScore then 0
  else if mimicScore > 1/2 then gunshotScore - 3/10
  else gunshotScore

/-- Custom-boost plus clamping step of the inference callback: replace the
heuristic score by the custom score when the latter is larger, then clamp to
the interval from 0 to 1 (min(max(s, 0), 1)). -/
def fuseScore (heuristic custom : ℚ) : ℚ :=
  let s := if custom > heuristic then custom else heuristic
  min (max s 0) 1

/-- Gate of the prototype-matching block: the best similarity only becomes the
custom score when it exceeds the 0.75 acceptance threshold, otherwise the
custom score stays 0. -/
def customScore (best : ℚ) : ℚ := if best > 3/4 then best else 0

/-- Relabelling condition of the inference callback: a category label is
renamed to its Verified form exactly when the custom score exceeds 0.75. -/
def verifiedLabel (custom : ℚ) : Bool := decide (custom > 3/4)

/-- Published per-cycle scores for the two threat categories, given the class
probability vector and the two custom similarity scores: the gunshot score
goes through the veto then fusion, the chainsaw score through fusion only. -/
def cycleScores (classes : List String) (scores : List ℚ) (customG customC : ℚ) : ℚ × ℚ :=
  let agg := aggregate classes scores
  (fuseScore (vetoGunshot agg.mimic agg.gunshot) customG, fuseScore agg.chainsaw customC)

/-- Rolling-buffer update of the inference callback.  The code allocates a
fresh zero array of length W, and either keeps the last W - m old samples
followed by the m new ones (keepLength > 0 branch) or takes the last W samples
of the new frame.  Under the maintained invariant that the old buffer has
length exactly W this is the following pure function. -/
def updateBuffer (W : ℕ) (old frame : List ℚ) : List ℚ :=
  if frame.length < W then old.drop frame.length ++ frame
  else frame.drop (frame.length - W)

/-- JavaScript Math.round for the values arising here: round half up,
that is the floor of x + 1/2. -/
def jsRound (x : ℚ) : ℤ := ⌊x + 1/2⌋

/-- Function downsampleBuffer from useAudioClassifier.ts: identity when the
rates agree, otherwise nearest-neighbor (floor-index) decimation with output
length Math.round(buffer.length / ratio) where ratio = sourceRate/targetRate. -/
def downsampleBuffer (buffer : List ℚ) (sourceRate targetRate : ℚ) : List ℚ :=
  if targetRate = sourceRate then buffer
  else
    let ratio := sourceRate / targetRate
    let newLength := (jsRound ((buffer.length : ℚ) / ratio)).toNat
    (List.range newLength).map (fun i : ℕ => buffer.getD (⌊(i : ℚ) * ratio⌋).toNat 0)

/-- Function dotProduct from useAudioClassifier.ts, for the equal-length
embedding vectors it is applied to. -/
def dotProduct (a b : List ℚ) : ℚ := (List.zipWith (fun x y => x * y) a b).sum

/-- Sum of squares of a vector (the reduce (s, v) => s + v * v pattern used
before normalization). -/
def sumSq (a : List ℚ) : ℚ := (a.map (fun x => x * x)).sum

/-- Best-similarity loop of the prototype-matching block: maxSim starts at the
sentinel -1 and is replaced by any strictly larger dot product. -/
def bestSimilarity (live : List ℚ) (protos : List (List ℚ)) : ℚ :=
  protos.foldl
    (fun maxSim p => if dotProduct live p > maxSim then dotProduct live p else maxSim) (-1)

/-- Per-channel energy of the direction computation: sum of absolute sample
values. -/
def channelEnergy (channel : List ℚ) : ℚ := (channel.map (fun x => |x|)).sum

/-- Stereo direction of the inference callback: right-minus-left energy
balance, guarded to 0 when the combined energy does not exceed 0.001. -/
def direction (left right : List ℚ) : ℚ :=
  if channelEnergy left + channelEnergy right > 1/1000 then
    (channelEnergy right - channelEnergy left) / (channelEnergy right + channelEnergy left)
  else 0

/-- Mean square of the mono samples (sum of squares over the length), the
argument of Math.sqrt in the volume computation. -/
def meanSquare (mono : List ℚ) : ℚ := sumSq mono / (mono.length : ℚ)

/-- RMS volume of the inference callback: Math.sqrt of the mean square. -/
noncomputable def volume (mono : List ℚ) : ℝ := Real.sqrt ((meanSquare mono : ℚ) : ℝ)

/-- Distance proxy of the inference callback:
Math.min(Math.max((volume - 0.01) / 0.3, 0), 1). -/
noncomputable def distanceOf (v : ℝ) : ℝ := min (max ((v - 1/100) / (3/10)) 0) 1

/-- Model-loading state of the hook: whether modelRef.current is set, the
identity of the in-flight promise held by modelPromiseRef.current (tagged by
the fetch ordinal that created it), and how many network fetches have been
issued. -/
structure LoaderState where
  modelLoaded : Bool
  inFlight : Option ℕ
  fetchCount : ℕ
deriving DecidableEq

/-- Function loadModel: if a promise is already stored it is returned as is,
otherwise a new load (one fetch) starts and its promise is stored. -/
def loadModel (s : LoaderState) : LoaderState × ℕ :=
  match s.inFlight with
  | some p => (s, p)
  | none => ({ s with inFlight := some s.fetchCount, fetchCount := s.fetchCount + 1 }, s.fetchCount)

/-- Model-acquisition prefix of startRecording: use modelRef.current when set,
else await the stored promise when one exists, else call loadModel.  The
second component is the promise awaited (none when the model was already
resident). -/
def startAcquire (s : LoaderState) : LoaderState × Option ℕ :=
  if s.modelLoaded then (s, none)
  else
    match s.inFlight with
    | some p => (s, some p)
    | none =>
      let r := loadModel s
      (r.1, some r.2)

/-- State after one startRecording model-acquisition step. -/
def stepAcquire (s : LoaderState) : LoaderState := (startAcquire s).1

/-- State of the AudioContext as far as stopRecording observes it. -/
inductive CtxState
  | running
  | suspended
  | closed
deriving DecidableEq

/-- Capture-session state touched by stopRecording: the three nulled refs, the
audio context, and the published fields it writes (isRecording, volume,
distance, direction), along with the published error, which it leaves alone. -/
structure CaptureState where
  hasStream : Bool
  hasProcessor : Bool
  hasAnalyser : Bool
  ctx : Option CtxState
  isRecording : Bool
  volume : ℚ
  distance : ℚ
  direction : ℚ
  error : Option String
deriving DecidableEq

/-- Function stopRecording: stop and null the stream tracks, disconnect and
null the processor and the analyser (each guarded by a null check), suspend
the audio context only when it is running, then publish isRecording = false
and zero volume, distance and direction. -/
def stopRecording (s : CaptureState) : CaptureState :=
  let s1 := if s.hasStream then { s with hasStream := false } else s
  let s2 := if s1.hasProcessor then { s1 with hasProcessor := false } else s1
  let s3 := if s2.hasAnalyser then { s2 with hasAnalyser := false } else s2
  let s4 := if s3.ctx = some CtxState.running then { s3 with ctx := some CtxState.suspended } else s3
  { s4 with isRecording := false, volume := 0, distance := 0, direction := 0 }

/-- Sum of squares over the reals (the reduce pattern of the normalization
code in both hooks). -/
noncomputable def sumSqR (v : List ℝ) : ℝ := (v.map (fun x => x * x)).sum

/-- Normalization of the pooled live embedding in the inference callback:
norm = Math.sqrt of the sum of squares, and the components are divided by the
norm only when norm > 0. -/
noncomputable def normalizeLiveEmbedding (v : List ℝ) : List ℝ :=
  let norm := Real.sqrt (sumSqR v)
  if 0 < norm then v.map (fun x => x / norm) else v

/-- Normalization of an enrollment prototype embedding in
useTransferLearning.ts (processCategory, both the average-pooled and the
single-frame branch): the same guarded division by the L2 norm. -/
noncomputable def normalizePrototype (v : List ℝ) : List ℝ :=
  let norm := Real.sqrt (sumSqR v)
  if 0 < norm then v.map (fun x => x / norm) else v

/-! Helper lemmas about folded maxima, shared by the aggregation and the
similarity developments. -/

theorem foldl_max_init_le (l : List ℚ) (a : ℚ) : a ≤ l.foldl max a := by
  induction l generalizing a with
  | nil => exact le_refl a
  | cons x xs ih => exact le_trans (le_max_left a x) (ih (max a x))

theorem le_foldl_max (l : List ℚ) (a x : ℚ) (hx : x ∈ l) : x ≤ l.foldl max a := by
  induction l generalizing a with
  | nil => cases hx
  | cons y ys ih =>
    rcases List.mem_cons.mp hx with h | h
    · subst h
      exact le_trans (le_max_right a x) (foldl_max_init_le ys (max a x))
    · exact ih (max a y) h

theorem foldl_max_mem_or_init (l : List ℚ) (a : ℚ) :
    l.foldl max a = a ∨ l.foldl max a ∈ l := by
  induction l generalizing a with
  | nil => exact Or.inl rfl
  | cons y ys ih =>
    rcases ih (max a y) with h | h
    · rcases max_choice a y with hm | hm
      · exact Or.inl (by rw [List.foldl_cons, h, hm])
      · exact Or.inr (by rw [List.foldl_cons, h, hm]; exact List.mem_cons_self y ys)
    · exact Or.inr (List.mem_cons_of_mem y h)

theorem foldl_max_le (l : List ℚ) (a b : ℚ) (ha : a ≤ b) (h : ∀ x ∈ l, x ≤ b) :
    l.foldl max a ≤ b := by
  induction l generalizing a with
  | nil => exact ha
  | cons y ys ih =>
    exact ih (max a y) (max_le ha (h y (List.mem_cons_self y ys)))
      (fun x hx => h x (List.mem_cons_of_mem y hx))

theorem foldl_max_mem_of_le_init (l : List ℚ) (a : ℚ) (hne : l ≠ [])
    (hnn : ∀ x ∈ l, a ≤ x) : l.foldl max a ∈ l := by
  rcases foldl_max_mem_or_init l a with h | h
  · obtain ⟨x, hx⟩ := List.exists_mem_of_ne_nil l hne
    have h1 : x ≤ l.foldl max a := le_foldl_max l a x hx
    have h2 : l.foldl max a = x := le_antisymm (by rw [h]; exact hnn x hx) h1
    exact h2 ▸ hx
  · exact h

/-- Unfolding of the aggregation loop field by field: each running maximum is
the fold of max over the scores of the matching labels. -/
theorem foldl_aggStep_fields (l : List (String × ℚ)) (acc : AggScores) :
    l.foldl aggStep acc =
      ⟨((l.filter (fun e => GUNSHOT_RELATED.contains e.1)).map Prod.snd).foldl max acc.gunshot,
       ((l.filter (fun e => CHAINSAW_RELATED.contains e.1)).map Prod.snd).foldl max acc.chainsaw,
       ((l.filter (fun e => FALSE_POSITIVES.contains e.1)).map Prod.snd).foldl max acc.mimic⟩ := by
  induction l generalizing acc with
  | nil => rfl
  | cons e es ih =>
    by_cases h1 : e.1 ∈ GUNSHOT_RELATED <;>
      by_cases h2 : e.1 ∈ CHAINSAW_RELATED <;>
        by_cases h3 : e.1 ∈ FALSE_POSITIVES <;>
          simp [List.foldl_cons, List.filter_cons, h1, h2, h3, aggStep, ih]

/-- C1: for every inference cycle, the veto is applied only to the gunshot
category score: strong veto (mimic above 0.2 and at least the gunshot score)
zeroes the gunshot score, otherwise a mimic score above 0.5 subtracts 0.3,
otherwise the gunshot score is untouched; the published chainsaw score is
produced by fusion alone and never depends on the mimic score. -/
theorem veto_only_gunshot (m g customG customC : ℚ) (classes : List String) (scores : List ℚ) :
    (m > 1/5 → m ≥ g → vetoGunshot m g = 0) ∧
    (¬ (m > 1/5 ∧ m ≥ g) → m > 1/2 → vetoGunshot m g = g - 3/10) ∧
    (¬ (m > 1/5 ∧ m ≥ g) → ¬ (m > 1/2) → vetoGunshot m g = g) ∧
    (cycleScores classes scores customG customC).2 =
      fuseScore (aggregate classes scores).chainsaw customC := by
  refine ⟨?_, ?_, ?_, rfl⟩
  · intro hm hg
    unfold vetoGunshot
    rw [if_pos (⟨hm, hg⟩ : m > 1/5 ∧ m ≥ g)]
  · intro hno hm
    unfold vetoGunshot
    rw [if_neg hno, if_pos hm]
  · intro hno hm
    unfold vetoGunshot
    rw [if_neg hno, if_neg hm]

theorem veto_only_gunshot_witness :
    (3:ℚ)/10 > 1/5 ∧ (3:ℚ)/10 ≥ 1/4 ∧ vetoGunshot (3/10) (1/4) = 0 :=
  ⟨by norm_num, by norm_num,
    (veto_only_gunshot (3/10) (1/4) 0 0 [] []).1 (by norm_num) (by norm_num)⟩

/-- Helper: rewriting of the fusion step as a clamped maximum. -/
theorem fuseScore_eq_clamp (h c : ℚ) : fuseScore h c = min (max (max h c) 0) 1 := by
  rcases le_or_lt c h with h1 | h1
  · simp [fuseScore, not_lt.mpr h1, max_eq_left h1]
  · simp [fuseScore, h1, max_eq_right (le_of_lt h1)]

/-- C2: the published score of each threat category is the maximum of the
post-veto heuristic score and the custom prototype-similarity score, clamped
to the unit interval; on the spec data point, heuristic 0.4 against custom
0.82 publishes 0.82 and the label is marked verified. -/
theorem fusion_max_clamped (classes : List String) (scores : List ℚ) (customG customC : ℚ) :
    (cycleScores classes scores customG customC).1 =
      min (max (max (vetoGunshot (aggregate classes scores).mimic
        (aggregate classes scores).gunshot) customG) 0) 1 ∧
    (cycleScores classes scores customG customC).2 =
      min (max (max (aggregate classes scores).chainsaw customC) 0) 1 ∧
    fuseScore (2/5) (41/50) = 41/50 ∧
    verifiedLabel (41/50) = true := by
  refine ⟨fuseScore_eq_clamp _ _, fuseScore_eq_clamp _ _, ?_, ?_⟩
  · rw [fuseScore_eq_clamp]
    norm_num
  · simp only [verifiedLabel, decide_eq_true_eq]
    norm_num

/-- C3: the heuristic gunshot score is the maximum, not the sum, of the
scores of the gunshot-related taxonomy labels present in the vector, and the
heuristic chainsaw score independently is the maximum over the
chainsaw-related labels (for the nonnegative class-probability scores the
model emits). -/
theorem heuristic_scores_are_maxima (classes : List String) (scores : List ℚ)
    (hnn : ∀ q ∈ scores, 0 ≤ q) :
    ((aggregate classes scores).gunshot =
      (((classes.zip scores).filter (fun e => GUNSHOT_RELATED.contains e.1)).map
        Prod.snd).foldl max 0) ∧
    (∀ e ∈ (classes.zip scores).filter (fun e => GUNSHOT_RELATED.contains e.1),
      e.2 ≤ (aggregate classes scores).gunshot) ∧
    ((classes.zip scores).filter (fun e => GUNSHOT_RELATED.contains e.1) ≠ [] →
      (aggregate classes scores).gunshot ∈
        ((classes.zip scores).filter (fun e => GUNSHOT_RELATED.contains e.1)).map Prod.snd) ∧
    ((aggregate classes scores).chainsaw =
      (((classes.zip scores).filter (fun e => CHAINSAW_RELATED.contains e.1)).map
        Prod.snd).foldl max 0) ∧
    (∀ e ∈ (classes.zip scores).filter (fun e => CHAINSAW_RELATED.contains e.1),
      e.2 ≤ (aggregate classes scores).chainsaw) ∧
    ((classes.zip scores).filter (fun e => CHAINSAW_RELATED.contains e.1) ≠ [] →
      (aggregate classes scores).chainsaw ∈
        ((classes.zip scores).filter (fun e => CHAINSAW_RELATED.contains e.1)).map Prod.snd) := by
  have hagg := foldl_aggStep_fields (classes.zip scores) ⟨0, 0, 0⟩
  have hg : (aggregate classes scores).gunshot =
      (((classes.zip scores).filter (fun e => GUNSHOT_RELATED.contains e.1)).map
        Prod.snd).foldl max 0 := by
    rw [aggregate, hagg]
  have hc : (aggregate classes scores).chainsaw =
      (((classes.zip scores).filter (fun e => CHAINSAW_RELATED.contains e.1)).map
        Prod.snd).foldl max 0 := by
    rw [aggregate, hagg]
  have hmemnn : ∀ (p : String × ℚ → Bool),
      ∀ x ∈ ((classes.zip scores).filter p).map Prod.snd, 0 ≤ x := by
    intro p x hx
    obtain ⟨e, he, hex⟩ := List.mem_map.mp hx
    have hez : e ∈ classes.zip scores := List.mem_of_mem_filter he
    exact hex ▸ hnn e.2 (List.of_mem_zip hez).2
  refine ⟨hg, ?_, ?_, hc, ?_, ?_⟩
  · intro e he
    rw [hg]
    exact le_foldl_max _ 0 e.2 (List.mem_map.mpr ⟨e, he, rfl⟩)
  · intro hne
    rw [hg]
    exact foldl_max_mem_of_le_init _ 0 (by simpa using hne) (hmemnn _)
  · intro e he
    rw [hc]
    exact le_foldl_max _ 0 e.2 (List.mem_map.mpr ⟨e, he, rfl⟩)
  · intro hne
    rw [hc]
    exact foldl_max_mem_of_le_init _ 0 (by simpa using hne) (hmemnn _)

theorem heuristic_scores_are_maxima_witness :
    (∀ q ∈ [(1:ℚ)/2, 1/4], 0 ≤ q) ∧
    (((aggregate ["Gunshot, gunfire", "Chainsaw"] [(1:ℚ)/2, 1/4]).gunshot =
      (((["Gunshot, gunfire", "Chainsaw"].zip [(1:ℚ)/2, 1/4]).filter
        (fun e => GUNSHOT_RELATED.contains e.1)).map Prod.snd).foldl max 0) ∧
    (∀ e ∈ (["Gunshot, gunfire", "Chainsaw"].zip [(1:ℚ)/2, 1/4]).filter
        (fun e => GUNSHOT_RELATED.contains e.1),
      e.2 ≤ (aggregate ["Gunshot, gunfire", "Chainsaw"] [(1:ℚ)/2, 1/4]).gunshot) ∧
    ((["Gunshot, gunfire", "Chainsaw"].zip [(1:ℚ)/2, 1/4]).filter
        (fun e => GUNSHOT_RELATED.contains e.1) ≠ [] →
      (aggregate ["Gunshot, gunfire", "Chainsaw"] [(1:ℚ)/2, 1/4]).gunshot ∈
        ((["Gunshot, gunfire", "Chainsaw"].zip [(1:ℚ)/2, 1/4]).filter
          (fun e => GUNSHOT_RELATED.contains e.1)).map Prod.snd) ∧
    ((aggregate ["Gunshot, gunfire", "Chainsaw"] [(1:ℚ)/2, 1/4]).chainsaw =
      (((["Gunshot, gunfire", "Chainsaw"].zip [(1:ℚ)/2, 1/4]).filter
        (fun e => CHAINSAW_RELATED.contains e.1)).map Prod.snd).foldl max 0) ∧
    (∀ e ∈ (["Gunshot, gunfire", "Chainsaw"].zip [(1:ℚ)/2, 1/4]).filter
        (fun e => CHAINSAW_RELATED.contains e.1),
      e.2 ≤ (aggregate ["Gunshot, gunfire", "Chainsaw"] [(1:ℚ)/2, 1/4]).chainsaw) ∧
    ((["Gunshot, gunfire", "Chainsaw"].zip [(1:ℚ)/2, 1/4]).filter
        (fun e => CHAINSAW_RELATED.contains e.1) ≠ [] →
      (aggregate ["Gunshot, gunfire", "Chainsaw"] [(1:ℚ)/2, 1/4]).chainsaw ∈
        ((["Gunshot, gunfire", "Chainsaw"].zip [(1:ℚ)/2, 1/4]).filter
          (fun e => CHAINSAW_RELATED.contains e.1)).map Prod.snd)) :=
  ⟨by
    intro q hq
    rcases List.mem_cons.mp hq with rfl | hq2
    · norm_num
    · rcases List.mem_singleton.mp hq2 with rfl
      norm_num,
  heuristic_scores_are_maxima ["Gunshot, gunfire", "Chainsaw"] [(1:ℚ)/2, 1/4]
    (by
      intro q hq
      rcases List.mem_cons.mp hq with rfl | hq2
      · norm_num
      · rcases List.mem_singleton.mp hq2 with rfl
        norm_num)⟩

/-- Helper: the rolling-buffer update preserves the fixed capacity. -/
theorem updateBuffer_length (W : ℕ) (old frame : List ℚ) (h : old.length = W) :
    (updateBuffer W old frame).length = W := by
  unfold updateBuffer
  split
  · rename_i hlt
    simp only [List.length_append, List.length_drop, h]
    omega
  · rename_i hge
    simp only [List.length_drop]
    omega

/-- Helper: with a full old buffer, one update equals dropping the oldest
samples from the concatenated stream. -/
theorem updateBuffer_eq_drop (W : ℕ) (old frame : List ℚ) (h : old.length = W) :
    updateBuffer W old frame = (old ++ frame).drop (old.length + frame.length - W) := by
  unfold updateBuffer
  split
  · rename_i hlt
    have h1 : old.length + frame.length - W = frame.length := by omega
    rw [h1, List.drop_append_of_le_length (show frame.length ≤ old.length by omega)]
  · rename_i hge
    have h1 : old.length + frame.length - W = old.length + (frame.length - W) := by omega
    rw [h1, List.drop_append]

/-- Helper: folding updates over a stream of frames keeps exactly the tail of
the concatenated stream (zero-padded start included). -/
theorem foldl_updateBuffer (W : ℕ) (frames : List (List ℚ)) (init : List ℚ)
    (h : init.length = W) :
    frames.foldl (updateBuffer W) init =
      (init ++ frames.flatten).drop ((frames.map List.length).sum) := by
  induction frames generalizing init with
  | nil => simp
  | cons f fs ih =>
    have hlen := updateBuffer_length W init f h
    rw [List.foldl_cons, ih _ hlen, updateBuffer_eq_drop W init f h]
    have hd : init.length + f.length - W = f.length := by omega
    rw [hd,
      ← List.drop_append_of_le_length
        (show f.length ≤ (init ++ f).length by rw [List.length_append]; omega),
      List.drop_drop]
    simp [List.append_assoc]

/-- C4: rolling-buffer contract of YAMNET_INPUT_SIZE = 15600 samples: a frame
shorter than the capacity shifts the buffer (last W - m old samples followed
by the m new ones), a frame at least as long replaces it by the last W new
samples; the buffer length is always exactly W, and once at least W samples
have been fed the buffer is exactly the most recent W samples of the
concatenated input stream, in order. -/
theorem rollingBuffer_spec (old frame : List ℚ) (frames : List (List ℚ))
    (hold : old.length = YAMNET_INPUT_SIZE) :
    (frame.length < YAMNET_INPUT_SIZE →
      updateBuffer YAMNET_INPUT_SIZE old frame = old.drop frame.length ++ frame) ∧
    (YAMNET_INPUT_SIZE ≤ frame.length →
      updateBuffer YAMNET_INPUT_SIZE old frame =
        frame.drop (frame.length - YAMNET_INPUT_SIZE)) ∧
    (updateBuffer YAMNET_INPUT_SIZE old frame).length = YAMNET_INPUT_SIZE ∧
    (frames.foldl (updateBuffer YAMNET_INPUT_SIZE)
      (List.replicate YAMNET_INPUT_SIZE 0)).length = YAMNET_INPUT_SIZE ∧
    (YAMNET_INPUT_SIZE ≤ (frames.map List.length).sum →
      frames.foldl (updateBuffer YAMNET_INPUT_SIZE) (List.replicate YAMNET_INPUT_SIZE 0) =
        frames.flatten.drop ((frames.map List.length).sum - YAMNET_INPUT_SIZE)) := by
  refine ⟨?_, ?_, updateBuffer_length _ _ _ hold, ?_, ?_⟩
  · intro hlt
    unfold updateBuffer
    rw [if_pos hlt]
  · intro hge
    unfold updateBuffer
    rw [if_neg (not_lt.mpr hge)]
  · rw [foldl_updateBuffer _ _ _ (List.length_replicate _ _)]
    simp only [List.length_drop, List.length_append, List.length_replicate, List.length_flatten]
    omega
  · intro hge
    rw [foldl_updateBuffer _ _ _ (List.length_replicate _ _)]
    have key := @List.drop_append ℚ (List.replicate YAMNET_INPUT_SIZE (0:ℚ)) frames.flatten
      ((frames.map List.length).sum - YAMNET_INPUT_SIZE)
    rw [List.length_replicate] at key
    have harith : YAMNET_INPUT_SIZE + ((frames.map List.length).sum - YAMNET_INPUT_SIZE)
        = (frames.map List.length).sum := by omega
    rw [harith] at key
    exact key

theorem rollingBuffer_spec_witness :
    (List.replicate YAMNET_INPUT_SIZE (0:ℚ)).length = YAMNET_INPUT_SIZE ∧
    (((List.replicate 3 (1:ℚ)).length < YAMNET_INPUT_SIZE →
      updateBuffer YAMNET_INPUT_SIZE (List.replicate YAMNET_INPUT_SIZE 0) (List.replicate 3 1) =
        (List.replicate YAMNET_INPUT_SIZE (0:ℚ)).drop (List.replicate 3 (1:ℚ)).length ++
          List.replicate 3 1) ∧
    (YAMNET_INPUT_SIZE ≤ (List.replicate 3 (1:ℚ)).length →
      updateBuffer YAMNET_INPUT_SIZE (List.replicate YAMNET_INPUT_SIZE 0) (List.replicate 3 1) =
        (List.replicate 3 (1:ℚ)).drop ((List.replicate 3 (1:ℚ)).length - YAMNET_INPUT_SIZE)) ∧
    (updateBuffer YAMNET_INPUT_SIZE (List.replicate YAMNET_INPUT_SIZE 0)
      (List.replicate 3 1)).length = YAMNET_INPUT_SIZE ∧
    (([] : List (List ℚ)).foldl (updateBuffer YAMNET_INPUT_SIZE)
      (List.replicate YAMNET_INPUT_SIZE 0)).length = YAMNET_INPUT_SIZE ∧
    (YAMNET_INPUT_SIZE ≤ (([] : List (List ℚ)).map List.length).sum →
      ([] : List (List ℚ)).foldl (updateBuffer YAMNET_INPUT_SIZE)
        (List.replicate YAMNET_INPUT_SIZE 0) =
        ([] : List (List ℚ)).flatten.drop
          ((([] : List (List ℚ)).map List.length).sum - YAMNET_INPUT_SIZE))) :=
  ⟨List.length_replicate _ _,
    rollingBuffer_spec (List.replicate YAMNET_INPUT_SIZE 0) (List.replicate 3 1) []
      (List.length_replicate _ _)⟩

/-- C5: the resampler returns its input unchanged when the rates agree;
otherwise the output length is round(N * targetRate / sourceRate) and output
element i is the input element at index floor(i * sourceRate / targetRate),
an index that is always in range (nearest-neighbor decimation, no
interpolation). -/
theorem downsample_spec (buffer : List ℚ) (sourceRate targetRate : ℚ)
    (hs : 0 < sourceRate) (ht : 0 < targetRate) :
    (targetRate = sourceRate → downsampleBuffer buffer sourceRate targetRate = buffer) ∧
    (targetRate ≠ sourceRate →
      (downsampleBuffer buffer sourceRate targetRate).length =
        (jsRound ((buffer.length : ℚ) * targetRate / sourceRate)).toNat ∧
      ∀ i, i < (downsampleBuffer buffer sourceRate targetRate).length →
        ((downsampleBuffer buffer sourceRate targetRate).getD i 0 =
          buffer.getD (⌊(i : ℚ) * sourceRate / targetRate⌋).toNat 0 ∧
        (⌊(i : ℚ) * sourceRate / targetRate⌋).toNat < buffer.length)) := by
  constructor
  · intro heq
    unfold downsampleBuffer
    rw [if_pos heq]
  · intro hne
    have hratio : (buffer.length : ℚ) / (sourceRate / targetRate) =
        (buffer.length : ℚ) * targetRate / sourceRate := div_div_eq_mul_div _ _ _
    have hbody : downsampleBuffer buffer sourceRate targetRate =
        (List.range ((jsRound ((buffer.length : ℚ) / (sourceRate / targetRate))).toNat)).map
          (fun j : ℕ => buffer.getD (⌊(j : ℚ) * (sourceRate / targetRate)⌋).toNat 0) := by
      unfold downsampleBuffer
      rw [if_neg hne]
    have hlen : (downsampleBuffer buffer sourceRate targetRate).length =
        (jsRound ((buffer.length : ℚ) * targetRate / sourceRate)).toNat := by
      rw [hbody, List.length_map, List.length_range, hratio]
    refine ⟨hlen, ?_⟩
    intro i hi
    rw [hlen] at hi
    have hi2 : i < (jsRound ((buffer.length : ℚ) / (sourceRate / targetRate))).toNat := by
      rw [hratio]; exact hi
    have hr : 0 < sourceRate / targetRate := div_pos hs ht
    have hiz : (i : ℤ) < jsRound ((buffer.length : ℚ) * targetRate / sourceRate) :=
      Int.lt_toNat.mp hi
    have h1 : (i : ℤ) + 1 ≤ ⌊(buffer.length : ℚ) * targetRate / sourceRate + 1/2⌋ := by
      unfold jsRound at hiz; omega
    have h2 : (((i : ℤ) + 1 : ℤ) : ℚ) ≤ (buffer.length : ℚ) * targetRate / sourceRate + 1/2 :=
      Int.le_floor.mp h1
    have h3 : (i : ℚ) < (buffer.length : ℚ) / (sourceRate / targetRate) := by
      rw [hratio]
      push_cast at h2
      linarith
    have h4 : (i : ℚ) * (sourceRate / targetRate) < (buffer.length : ℚ) :=
      (lt_div_iff₀ hr).mp h3
    have h5 : ⌊(i : ℚ) * (sourceRate / targetRate)⌋ < (buffer.length : ℤ) := by
      have hfl := Int.floor_le ((i : ℚ) * (sourceRate / targetRate))
      have hq : (⌊(i : ℚ) * (sourceRate / targetRate)⌋ : ℚ) < (buffer.length : ℚ) :=
        lt_of_le_of_lt hfl h4
      exact_mod_cast hq
    have hassoc : (i : ℚ) * sourceRate / targetRate = (i : ℚ) * (sourceRate / targetRate) :=
      mul_div_assoc _ _ _
    have hN : 0 < buffer.length := by
      rcases Nat.eq_zero_or_pos buffer.length with h0 | h0
      · rw [h0] at h3
        norm_num at h3
        exact absurd h3 (not_lt.mpr (by positivity))
      · exact h0
    constructor
    · rw [hbody, List.getD_eq_getElem?_getD, List.getElem?_map, List.getElem?_range hi2]
      simp [hassoc]
    · rw [hassoc]
      omega

theorem downsample_spec_witness :
    (0 : ℚ) < 32000 ∧ (0 : ℚ) < 16000 ∧
    (((16000 : ℚ) = 32000 → downsampleBuffer [10, 20, 30, 40] 32000 16000 = [10, 20, 30, 40]) ∧
    ((16000 : ℚ) ≠ 32000 →
      (downsampleBuffer [10, 20, 30, 40] 32000 16000).length =
        (jsRound (([10, 20, 30, 40].length : ℚ) * 16000 / 32000)).toNat ∧
      ∀ i, i < (downsampleBuffer [10, 20, 30, 40] 32000 16000).length →
        ((downsampleBuffer [10, 20, 30, 40] 32000 16000).getD i 0 =
          [10, 20, 30, 40].getD (⌊(i : ℚ) * 32000 / 16000⌋).toNat 0 ∧
        (⌊(i : ℚ) * 32000 / 16000⌋).toNat < [10, 20, 30, 40].length))) :=
  ⟨by norm_num, by norm_num,
    downsample_spec [10, 20, 30, 40] 32000 16000 (by norm_num) (by norm_num)⟩

/-! Helper lemmas for the similarity development. -/

theorem sumSq_cons (x : ℚ) (xs : List ℚ) : sumSq (x :: xs) = x * x + sumSq xs := by
  simp [sumSq]

theorem dotProduct_cons (x y : ℚ) (xs ys : List ℚ) :
    dotProduct (x :: xs) (y :: ys) = x * y + dotProduct xs ys := by
  simp [dotProduct]

theorem sumSq_nonneg (a : List ℚ) : 0 ≤ sumSq a := by
  unfold sumSq
  apply List.sum_nonneg
  intro x hx
  obtain ⟨y, _, rfl⟩ := List.mem_map.mp hx
  exact mul_self_nonneg y

theorem dotProduct_self (a : List ℚ) : dotProduct a a = sumSq a := by
  induction a with
  | nil => rfl
  | cons x xs ih => rw [dotProduct_cons, sumSq_cons, ih]

theorem sumSq_zipWith_add (a b : List ℚ) (h : a.length = b.length) :
    sumSq (List.zipWith (fun x y => x + y) a b) =
      sumSq a + 2 * dotProduct a b + sumSq b := by
  induction a generalizing b with
  | nil =>
    cases b with
    | nil => simp [sumSq, dotProduct]
    | cons y ys => simp at h
  | cons x xs ih =>
    cases b with
    | nil => simp at h
    | cons y ys =>
      have hl : xs.length = ys.length := by simpa using h
      rw [List.zipWith_cons_cons, sumSq_cons, sumSq_cons, sumSq_cons, dotProduct_cons, ih ys hl]
      ring

theorem sumSq_zipWith_sub (a b : List ℚ) (h : a.length = b.length) :
    sumSq (List.zipWith (fun x y => x - y) a b) =
      sumSq a - 2 * dotProduct a b + sumSq b := by
  induction a generalizing b with
  | nil =>
    cases b with
    | nil => simp [sumSq, dotProduct]
    | cons y ys => simp at h
  | cons x xs ih =>
    cases b with
    | nil => simp at h
    | cons y ys =>
      have hl : xs.length = ys.length := by simpa using h
      rw [List.zipWith_cons_cons, sumSq_cons, sumSq_cons, sumSq_cons, dotProduct_cons, ih ys hl]
      ring

theorem dotProduct_le_one (a b : List ℚ) (h : a.length = b.length)
    (ha : sumSq a = 1) (hb : sumSq b = 1) : dotProduct a b ≤ 1 := by
  have h0 := sumSq_nonneg (List.zipWith (fun x y => x - y) a b)
  rw [sumSq_zipWith_sub a b h, ha, hb] at h0
  linarith

theorem neg_one_le_dotProduct (a b : List ℚ) (h : a.length = b.length)
    (ha : sumSq a = 1) (hb : sumSq b = 1) : -1 ≤ dotProduct a b := by
  have h0 := sumSq_nonneg (List.zipWith (fun x y => x + y) a b)
  rw [sumSq_zipWith_add a b h, ha, hb] at h0
  linarith

theorem bestSimilarity_eq_foldl (live : List ℚ) (protos : List (List ℚ)) :
    bestSimilarity live protos = (protos.map (dotProduct live)).foldl max (-1) := by
  unfold bestSimilarity
  suffices h : ∀ (ps : List (List ℚ)) (m : ℚ),
      ps.foldl (fun acc p => if dotProduct live p > acc then dotProduct live p else acc) m =
        (ps.map (dotProduct live)).foldl max m from h protos (-1)
  intro ps
  induction ps with
  | nil => intro m; rfl
  | cons p ps ih =>
    intro m
    rw [List.foldl_cons, List.map_cons, List.foldl_cons, ih]
    congr 1
    rcases le_or_lt (dotProduct live p) m with h1 | h1
    · rw [if_neg (not_lt.mpr h1), max_eq_left h1]
    · rw [if_pos h1, max_eq_right (le_of_lt h1)]

/-- C6: for an L2-normalized live embedding and unit-norm prototypes, the
best-similarity loop returns the maximum dot product over all prototypes, the
sentinel -1 on an empty prototype list (exactly, since the model is exact
rational arithmetic), and 1 when the prototype set contains the live vector
itself. -/
theorem bestSimilarity_spec (live : List ℚ) (protos : List (List ℚ))
    (hlive : sumSq live = 1)
    (hp : ∀ p ∈ protos, p.length = live.length ∧ sumSq p = 1) :
    bestSimilarity live [] = -1 ∧
    (protos ≠ [] →
      bestSimilarity live protos ∈ protos.map (dotProduct live) ∧
      ∀ p ∈ protos, dotProduct live p ≤ bestSimilarity live protos) ∧
    (live ∈ protos → bestSimilarity live protos = 1) := by
  have hub : ∀ p ∈ protos, dotProduct live p ≤ 1 := fun p hp2 =>
    dotProduct_le_one live p ((hp p hp2).1).symm hlive ((hp p hp2).2)
  have hlb : ∀ p ∈ protos, -1 ≤ dotProduct live p := fun p hp2 =>
    neg_one_le_dotProduct live p ((hp p hp2).1).symm hlive ((hp p hp2).2)
  refine ⟨rfl, ?_, ?_⟩
  · intro hne
    rw [bestSimilarity_eq_foldl]
    constructor
    · apply foldl_max_mem_of_le_init
      · simpa using hne
      · intro x hx
        obtain ⟨p, hp2, rfl⟩ := List.mem_map.mp hx
        exact hlb p hp2
    · intro p hp2
      exact le_foldl_max _ (-1) _ (List.mem_map.mpr ⟨p, hp2, rfl⟩)
  · intro hmem
    rw [bestSimilarity_eq_foldl]
    have hle : (protos.map (dotProduct live)).foldl max (-1) ≤ 1 := by
      apply foldl_max_le
      · norm_num
      · intro x hx
        obtain ⟨p, hp2, rfl⟩ := List.mem_map.mp hx
        exact hub p hp2
    have hge : 1 ≤ (protos.map (dotProduct live)).foldl max (-1) := by
      have hd : dotProduct live live = 1 := by rw [dotProduct_self]; exact hlive
      have hm := le_foldl_max (protos.map (dotProduct live)) (-1) (dotProduct live live)
        (List.mem_map.mpr ⟨live, hmem, rfl⟩)
      rw [hd] at hm
      exact hm
    linarith

theorem bestSimilarity_spec_witness :
    sumSq [(1:ℚ), 0] = 1 ∧
    (∀ p ∈ [[(1:ℚ), 0]], p.length = [(1:ℚ), 0].length ∧ sumSq p = 1) ∧
    (bestSimilarity [(1:ℚ), 0] [] = -1 ∧
    ([[(1:ℚ), 0]] ≠ [] →
      bestSimilarity [(1:ℚ), 0] [[(1:ℚ), 0]] ∈ [[(1:ℚ), 0]].map (dotProduct [(1:ℚ), 0]) ∧
      ∀ p ∈ [[(1:ℚ), 0]], dotProduct [(1:ℚ), 0] p ≤ bestSimilarity [(1:ℚ), 0] [[(1:ℚ), 0]]) ∧
    ([(1:ℚ), 0] ∈ [[(1:ℚ), 0]] → bestSimilarity [(1:ℚ), 0] [[(1:ℚ), 0]] = 1)) :=
  ⟨by norm_num [sumSq],
    by
      intro p hp
      simp only [List.mem_singleton] at hp
      subst hp
      exact ⟨rfl, by norm_num [sumSq]⟩,
    bestSimilarity_spec [(1:ℚ), 0] [[(1:ℚ), 0]] (by norm_num [sumSq])
      (by
        intro p hp
        simp only [List.mem_singleton] at hp
        subst hp
        exact ⟨rfl, by norm_num [sumSq]⟩)⟩

theorem channelEnergy_nonneg (c : List ℚ) : 0 ≤ channelEnergy c := by
  unfold channelEnergy
  apply List.sum_nonneg
  intro x hx
  obtain ⟨y, _, rfl⟩ := List.mem_map.mp hx
  exact abs_nonneg y

/-- C7: the published volume is the square root of the mean squared sample
(characterized by nonnegativity and its square), the published distance is
the clamped affine map of the volume and always lies in the unit interval,
and the stereo direction is the normalized right-minus-left energy balance,
lies between -1 and 1, and is zero under the silence guard. -/
theorem chunkFeatures_spec (mono left right : List ℚ) :
    0 ≤ volume mono ∧
    volume mono ^ 2 = ((meanSquare mono : ℚ) : ℝ) ∧
    distanceOf (volume mono) = min (max ((volume mono - 1/100) / (3/10)) 0) 1 ∧
    0 ≤ distanceOf (volume mono) ∧
    distanceOf (volume mono) ≤ 1 ∧
    -1 ≤ direction left right ∧
    direction left right ≤ 1 ∧
    (channelEnergy left + channelEnergy right ≤ 1/1000 → direction left right = 0) := by
  have hms : (0:ℚ) ≤ meanSquare mono := by
    unfold meanSquare
    exact div_nonneg (sumSq_nonneg mono) (by exact_mod_cast Nat.zero_le _)
  have hmsR : (0:ℝ) ≤ ((meanSquare mono : ℚ) : ℝ) := by exact_mod_cast hms
  have hdir : (-1 ≤ direction left right ∧ direction left right ≤ 1) ∧
      (channelEnergy left + channelEnergy right ≤ 1/1000 → direction left right = 0) := by
    unfold direction
    split
    · rename_i hpos
      have hl0 := channelEnergy_nonneg left
      have hr0 := channelEnergy_nonneg right
      have hsum : 0 < channelEnergy right + channelEnergy left := by linarith
      refine ⟨⟨?_, ?_⟩, ?_⟩
      · rw [le_div_iff₀ hsum]
        linarith
      · rw [div_le_one hsum]
        linarith
      · intro hle2
        exact absurd hpos (not_lt.mpr hle2)
    · exact ⟨⟨by norm_num, by norm_num⟩, fun _ => rfl⟩
  exact ⟨Real.sqrt_nonneg _, Real.sq_sqrt hmsR, rfl,
    le_min (le_max_right _ 0) zero_le_one, min_le_right _ 1,
    hdir.1.1, hdir.1.2, hdir.2⟩

theorem chunkFeatures_spec_witness :
    channelEnergy [] + channelEnergy [] ≤ 1/1000 ∧ direction [] [] = 0 :=
  ⟨by norm_num [channelEnergy],
    (chunkFeatures_spec [] [] []).2.2.2.2.2.2.2 (by norm_num [channelEnergy])⟩

/-- C8: starting from a state with no resident model and no load in flight,
the first startCapture issues exactly one fetch and stores the in-flight
promise; the second near-simultaneous startCapture changes nothing and awaits
that same promise, and any number of further calls while the load is in
flight leaves the fetch count at one more than before. -/
theorem singleFetch_spec (s : LoaderState) (h1 : s.modelLoaded = false) (h2 : s.inFlight = none) :
    (startAcquire s).1.fetchCount = s.fetchCount + 1 ∧
    (startAcquire s).1.inFlight = some s.fetchCount ∧
    (startAcquire s).2 = some s.fetchCount ∧
    startAcquire (startAcquire s).1 = ((startAcquire s).1, some s.fetchCount) ∧
    ∀ n : ℕ, (stepAcquire^[n] (startAcquire s).1).fetchCount = s.fetchCount + 1 := by
  have hstart : startAcquire s =
      ({ s with inFlight := some s.fetchCount, fetchCount := s.fetchCount + 1 },
        some s.fetchCount) := by
    simp [startAcquire, loadModel, h1, h2]
  rw [hstart]
  have hfix : stepAcquire { s with inFlight := some s.fetchCount, fetchCount := s.fetchCount + 1 } = { s with inFlight := some s.fetchCount, fetchCount := s.fetchCount + 1 } := by
    simp [stepAcquire, startAcquire, h1]
  refine ⟨rfl, rfl, rfl, ?_, ?_⟩
  · show startAcquire _ = _
    simp [startAcquire, h1]
  · intro n
    rw [Function.iterate_fixed hfix n]

theorem singleFetch_spec_witness :
    (LoaderState.mk false none 0).modelLoaded = false ∧
    (LoaderState.mk false none 0).inFlight = none ∧
    ((startAcquire ⟨false, none, 0⟩).1.fetchCount = 1 ∧
    (startAcquire ⟨false, none, 0⟩).1.inFlight = some 0 ∧
    (startAcquire ⟨false, none, 0⟩).2 = some 0 ∧
    startAcquire (startAcquire ⟨false, none, 0⟩).1 = ((startAcquire ⟨false, none, 0⟩).1, some 0) ∧
    ∀ n : ℕ, (stepAcquire^[n] (startAcquire ⟨false, none, 0⟩).1).fetchCount = 1) :=
  ⟨rfl, rfl, singleFetch_spec ⟨false, none, 0⟩ rfl rfl⟩

/-- Helper: closed form of one stopRecording pass. -/
theorem stopRecording_eq (s : CaptureState) :
    stopRecording s =
      ⟨false, false, false,
        if s.ctx = some CtxState.running then some CtxState.suspended else s.ctx,
        false, 0, 0, 0, s.error⟩ := by
  rcases s with ⟨hs, hp, ha, ctx, rec, vol, dist, dir, err⟩
  cases hs <;> cases hp <;> cases ha <;>
    by_cases hc : ctx = some CtxState.running <;> simp [stopRecording, hc]

/-- C9: stopCapture is idempotent: a second call on an already stopped
session changes nothing; every stop leaves isRecording false and zeroes the
published volume, distance and direction, and never alters the error field
(it cannot fail). -/
theorem stopRecording_spec (s : CaptureState) :
    stopRecording (stopRecording s) = stopRecording s ∧
    (stopRecording s).isRecording = false ∧
    (stopRecording s).volume = 0 ∧
    (stopRecording s).distance = 0 ∧
    (stopRecording s).direction = 0 ∧
    (stopRecording s).error = s.error := by
  refine ⟨?_, ?_, ?_, ?_, ?_, ?_⟩
  · rw [stopRecording_eq s, stopRecording_eq]
    by_cases hc : s.ctx = some CtxState.running <;> simp [hc]
  · rw [stopRecording_eq]
  · rw [stopRecording_eq]
  · rw [stopRecording_eq]
  · rw [stopRecording_eq]
  · rw [stopRecording_eq]

theorem sumSqR_cons (x : ℝ) (xs : List ℝ) : sumSqR (x :: xs) = x * x + sumSqR xs := by
  simp [sumSqR]

theorem sumSqR_nonneg (v : List ℝ) : 0 ≤ sumSqR v := by
  unfold sumSqR
  apply List.sum_nonneg
  intro x hx
  obtain ⟨y, _, rfl⟩ := List.mem_map.mp hx
  exact mul_self_nonneg y

theorem sumSqR_map_div (v : List ℝ) (c : ℝ) :
    sumSqR (v.map (fun x => x / c)) = sumSqR v / c ^ 2 := by
  induction v with
  | nil => simp [sumSqR]
  | cons x xs ih =>
    rw [List.map_cons, sumSqR_cons, sumSqR_cons, ih, div_mul_div_comm, ← pow_two c,
      div_add_div_same]

theorem sumSqR_eq_zero_of_all_zero (v : List ℝ) (h : ∀ x ∈ v, x = 0) : sumSqR v = 0 := by
  induction v with
  | nil => rfl
  | cons x xs ih =>
    rw [sumSqR_cons, h x (List.mem_cons_self x xs),
      ih (fun y hy => h y (List.mem_cons_of_mem x hy))]
    ring

/-- C10: in both the live-inference path and the enrollment path the pooled
embedding is divided by its L2 norm only when that norm is strictly positive;
an all-zero embedding (more generally any embedding of zero norm) is left
untouched rather than divided by zero, and the result always has sum of
squares at most 1, so every value stays finite in the real-valued model. -/
theorem normalizeGuard_spec (v : List ℝ) :
    (sumSqR v = 0 → normalizeLiveEmbedding v = v ∧ normalizePrototype v = v) ∧
    ((∀ x ∈ v, x = 0) → normalizeLiveEmbedding v = v ∧ normalizePrototype v = v) ∧
    (0 < sumSqR v →
      normalizeLiveEmbedding v = v.map (fun x => x / Real.sqrt (sumSqR v)) ∧
      normalizePrototype v = v.map (fun x => x / Real.sqrt (sumSqR v)) ∧
      0 < Real.sqrt (sumSqR v) ∧
      sumSqR (normalizeLiveEmbedding v) = 1) ∧
    sumSqR (normalizeLiveEmbedding v) ≤ 1 ∧
    sumSqR (normalizePrototype v) ≤ 1 := by
  have heq : normalizePrototype v = normalizeLiveEmbedding v := rfl
  have hzero : sumSqR v = 0 → normalizeLiveEmbedding v = v := by
    intro h0
    simp only [normalizeLiveEmbedding, h0, Real.sqrt_zero, lt_self_iff_false, if_false]
  have hposern : 0 < sumSqR v →
      normalizeLiveEmbedding v = v.map (fun x => x / Real.sqrt (sumSqR v)) := by
    intro h0
    simp only [normalizeLiveEmbedding]
    rw [if_pos (Real.sqrt_pos.mpr h0)]
  have hunit : 0 < sumSqR v → sumSqR (normalizeLiveEmbedding v) = 1 := by
    intro h0
    rw [hposern h0, sumSqR_map_div, Real.sq_sqrt (le_of_lt h0), div_self (ne_of_gt h0)]
  have hle : sumSqR (normalizeLiveEmbedding v) ≤ 1 := by
    rcases lt_or_eq_of_le (sumSqR_nonneg v) with h0 | h0
    · rw [hunit h0]
    · rw [hzero h0.symm, ← h0]
      norm_num
  exact ⟨fun h0 => ⟨hzero h0, heq.trans (hzero h0)⟩,
    fun h0 => ⟨hzero (sumSqR_eq_zero_of_all_zero v h0),
      heq.trans (hzero (sumSqR_eq_zero_of_all_zero v h0))⟩,
    fun h0 => ⟨hposern h0, heq.trans (hposern h0), Real.sqrt_pos.mpr h0, hunit h0⟩,
    hle, by rw [heq]; exact hle⟩

theorem normalizeGuard_spec_witness :
    (∀ x ∈ [(0:ℝ)], x = 0) ∧
    normalizeLiveEmbedding [(0:ℝ)] = [(0:ℝ)] ∧ normalizePrototype [(0:ℝ)] = [(0:ℝ)] :=
  ⟨by simp, ((normalizeGuard_spec [(0:ℝ)]).2.1 (by simp)).1,
    ((normalizeGuard_spec [(0:ℝ)]).2.1 (by simp)).2⟩

end Poaching
